import Mathlib

/-!
Shallow embedding of `src/WLD_analyzer.py`: word-length distributions
(WLDs), the zero-guard truncator, the pooled common list, the expected-list
estimator with rounding-drift correction, and the corpus-loading filename
logic.  Python strings are `List Char`, dicts are association lists, Python
exceptions are an explicit `PyError` in `Except`, and the float arithmetic
of the estimator is modelled exactly: `round(count * multiplier)` becomes
Python's round-half-to-even of the exact integer fraction
`(count * sum(sample)) / sum(common)`.
-/

namespace WLD

/-- A token is a string; only its length matters downstream. -/
abbrev Token := List Char

/-- Python runtime errors the analyzer can raise. -/
inductive PyError where
  | valueError (msg : String)
  | keyError (key : String)
  | zeroDivisionError
  deriving DecidableEq, Repr

/-! ### Distribution builder (`_wld`, `_wld_list`)

`nltk.FreqDist(lengths)` is a `collections.Counter`: a dict from observed
length to its count, keys in first-occurrence (insertion) order.
`_wld_list` returns `[wld.get(k, 0) for k in wld.keys()]`. -/

/-- Append a key to a Python-dict key list if absent (insertion order). -/
def insertKey (ks : List ℕ) (x : ℕ) : List ℕ :=
  if x ∈ ks then ks else ks ++ [x]

/-- The keys of `Counter(l)` in first-occurrence order. -/
def wldKeys (l : List ℕ) : List ℕ :=
  l.foldl insertKey []

/-- Translation of `_wld_list`: counts of each observed word length, in first-occurrence
order of the lengths (the code iterates `wld.keys()`). -/
def wld_list (tokens : List Token) : List ℕ :=
  let lens := tokens.map List.length
  (wldKeys lens).map (fun k => lens.count k)

/-! ### Zero-guard truncator (`ensure_no_zeros`) -/

/-- Length of the shortest list (`min(len(l) for l in wld_lists)`);
junk value 0 on the empty collection (Python raises there). -/
def minLen (ls : List (List ℕ)) : ℕ :=
  match ls with
  | [] => 0
  | l :: rest => rest.foldl (fun m x => min m x.length) l.length

/-- Whether `all(wld_list[c] >= t for wld_list in wld_lists.values())` holds. -/
def rowOk (ls : List (List ℕ)) (t c : ℕ) : Bool :=
  ls.all (fun l => t ≤ l.getD c 0)

/-- The scan loop of `ensure_no_zeros`: starting at index `c` with
`fuel` indices left before the shortest list ends, advance while every
list has count ≥ `t` at the current index. -/
def cutoffAux (ls : List (List ℕ)) (t : ℕ) : ℕ → ℕ → ℕ
  | 0, c => c
  | fuel + 1, c => if rowOk ls t c then cutoffAux ls t fuel (c + 1) else c

/-- The cutoff index found by `ensure_no_zeros`. -/
def cutoffIdx (ls : List (List ℕ)) (t : ℕ) : ℕ :=
  cutoffAux ls t (minLen ls) 0

/-- Translation of `ensure_no_zeros` (value form of the in-place mutation): every list
replaced by its prefix of length `cutoffIdx`.  Default threshold 10. -/
def ensure_no_zeros (ls : List (List ℕ)) (t : ℕ) : List (List ℕ) :=
  ls.map (fun l => l.take (cutoffIdx ls t))

/-! ### Pooled common list (`_common_wld_list`)

The loop ranges over `range(len(list(wld_lists)[0]))` — the FIRST list's
length — and at each index adds the count of every list long enough. -/

/-- Translation of `_common_wld_list`. -/
def common_wld_list (ls : List (List ℕ)) : List ℕ :=
  (List.range (ls.headD []).length).map
    (fun i => (ls.map (fun l => if i < l.length then l.getD i 0 else 0)).sum)

/-! ### Expected list (`_expected_wld_list`) -/

/-- Python's `round` applied to the exact rational `n / d` (with
`d > 0`): round half to even.  `f` is the floor of `n / d` and
`2 * (n - f * d)` compares the fractional part against `1 / 2`. -/
def pyRound (n d : ℤ) : ℤ :=
  let f : ℤ := Int.fdiv n d
  let r2 : ℤ := 2 * (n - f * d)
  if r2 < d then f
  else if d < r2 then f + 1
  else if f % 2 = 0 then f else f + 1

/-- The maximum of a list of integers (junk 0 on `[]`). -/
def listMax (l : List ℤ) : ℤ :=
  match l with
  | [] => 0
  | x :: xs => xs.foldl max x

/-- Add `d` to the first element equal to `m`. -/
def addFirstEq (m d : ℤ) : List ℤ → List ℤ
  | [] => []
  | x :: xs => if x = m then (x + d) :: xs else x :: addFirstEq m d xs

/-- Semantics of `l[np.argmax(l)] += d`: add `d` at the first index holding the
largest element. -/
def addToFirstMax (l : List ℤ) (d : ℤ) : List ℤ :=
  addFirstEq (listMax l) d l

/-- Translation of `_expected_wld_list`: truncate the common list to the sample's
length, rescale each entry by `multiplier = sum(sample)/sum(common_truncated)`
— `round(count * multiplier)` is the exact-rational rounding of the
fraction `(count * sum(sample)) / sum(common_truncated)` — and absorb
the rounding drift into the first largest entry.  `none` models the
`ZeroDivisionError` Python raises when the truncated common list sums
to 0. -/
def expected_wld_list (wld : List ℕ) (common : List ℕ) :
    Option (List ℤ) :=
  let c := common.take wld.length
  if c.sum = 0 then none
  else
    let rounded := c.map
      (fun (count : ℕ) => pyRound ((count : ℤ) * (wld.sum : ℤ)) (c.sum : ℤ))
    some (addToFirstMax rounded ((wld.sum : ℤ) - rounded.sum))

/-! ### Comparator data path (`chi_square`)

`chi_square` truncates the collection in place, pools it, and computes
each name's expected list before calling `scipy.stats.chisquare`.  We
model the data it feeds the test: per name, the expected list or the
Python error reached while computing it. -/

/-- The expected lists `chi_square` computes for a batch (values of the
name→list dict, in order), with `none` where Python raises. -/
def chiSquareExpected (wldLists : List (List ℕ)) (t : ℕ) :
    List (Option (List ℤ)) :=
  let truncated := ensure_no_zeros wldLists t
  let common := common_wld_list truncated
  truncated.map (fun w => expected_wld_list w common)

/-! ### Name resolution (`_tokens_from_name`) -/

/-- Python dict lookup: `d[k]`, raising `KeyError` when absent. -/
def dictGet {α : Type} (d : List (String × α)) (k : String) :
    Except PyError α :=
  match d.find? (fun p => p.1 == k) with
  | some p => Except.ok p.2
  | none => Except.error (PyError.keyError k)

/-- Rendering `str(kind)` for the `kind` argument (`None` prints as `None`). -/
def kindStr : Option String → String
  | none => "None"
  | some s => s

/-- Translation of `_tokens_from_name`: resolve a book's tokens, or the concatenation
of an author's books' tokens; any other `kind` raises `ValueError`
naming the offending kind. -/
def tokens_from_name (tokenizedTexts : List (String × List Token))
    (booksByAuthor : List (String × List String))
    (name : String) (kind : Option String) : Except PyError (List Token) :=
  if kind = some "book" then
    dictGet tokenizedTexts name
  else if kind = some "author" then do
    let books ← dictGet booksByAuthor name
    books.foldlM (fun acc b => do
      let t ← dictGet tokenizedTexts b
      pure (acc ++ t)) []
  else
    Except.error (PyError.valueError
      ("Kind must be book or author, not " ++ kindStr kind))

/-! ### Corpus loading (`__init__` filename handling)

Files pass the filter `('-' in f and f.endswith('.txt'))`; for each,
`title, author = filename.replace('.txt', '').split('-')` — an unpack
that raises `ValueError` unless the split has exactly two parts. -/

/-- Translation of `s.replace(".txt", "")`: delete every occurrence, left to right. -/
def removeTxt : List Char → List Char
  | '.' :: 't' :: 'x' :: 't' :: rest => removeTxt rest
  | c :: cs => c :: removeTxt cs
  | [] => []

/-- Translation of `s.split('-')`. -/
def splitHyphen : List Char → List (List Char)
  | [] => [[]]
  | '-' :: cs => [] :: splitHyphen cs
  | c :: cs =>
    match splitHyphen cs with
    | [] => [[c]]
    | p :: ps => (c :: p) :: ps

/-- The `__init__` filename filter. -/
def isCandidate (f : List Char) : Bool :=
  f.contains '-' && List.isSuffixOf ['.', 't', 'x', 't'] f

/-- The (title, author) pairs `__init__` extracts from a directory
listing; a candidate filename whose split is not exactly two parts
raises `ValueError` and aborts the load. -/
def loadPairs : List (List Char) → Except PyError (List (List Char × List Char))
  | [] => Except.ok []
  | f :: fs =>
    if isCandidate f then
      match splitHyphen (removeTxt f) with
      | [title, author] => (loadPairs fs).map (fun l => (title, author) :: l)
      | _ => Except.error (PyError.valueError "too many values to unpack")
    else
      loadPairs fs

/-! ### Lemmas about the key list of the distribution builder -/

theorem mem_insertKey {ks : List ℕ} {x y : ℕ} :
    y ∈ insertKey ks x ↔ y ∈ ks ∨ y = x := by
  unfold insertKey
  split
  · next hx =>
    constructor
    · exact Or.inl
    · rintro (h | rfl)
      · exact h
      · exact hx
  · simp [List.mem_append]

theorem nodup_insertKey {ks : List ℕ} {x : ℕ} (h : ks.Nodup) :
    (insertKey ks x).Nodup := by
  unfold insertKey
  split
  · exact h
  · next hx =>
    refine List.Nodup.append h (List.nodup_singleton x) ?_
    intro y hy hyx
    simp only [List.mem_singleton] at hyx
    exact hx (hyx ▸ hy)

theorem nodup_foldl_insertKey (l : List ℕ) (acc : List ℕ) (h : acc.Nodup) :
    (l.foldl insertKey acc).Nodup := by
  induction l generalizing acc with
  | nil => exact h
  | cons x xs ih => exact ih _ (nodup_insertKey h)

theorem mem_foldl_insertKey (l : List ℕ) (acc : List ℕ) (y : ℕ) :
    y ∈ l.foldl insertKey acc ↔ y ∈ acc ∨ y ∈ l := by
  induction l generalizing acc with
  | nil => simp
  | cons x xs ih =>
    simp only [List.foldl_cons, ih, mem_insertKey, List.mem_cons]
    tauto

theorem nodup_wldKeys (l : List ℕ) : (wldKeys l).Nodup :=
  nodup_foldl_insertKey l [] List.nodup_nil

theorem mem_wldKeys (l : List ℕ) (y : ℕ) : y ∈ wldKeys l ↔ y ∈ l := by
  unfold wldKeys
  rw [mem_foldl_insertKey]
  simp

theorem sum_ite_eq_one {ks : List ℕ} {a : ℕ} (hn : ks.Nodup) (ha : a ∈ ks) :
    (ks.map (fun k => if k = a then (1 : ℕ) else 0)).sum = 1 := by
  induction ks with
  | nil => cases ha
  | cons b ks ih =>
    by_cases hba : b = a
    · subst hba
      have hz : (ks.map (fun k => if k = b then (1 : ℕ) else 0)).sum = 0 := by
        refine List.sum_eq_zero ?_
        intro x hx
        simp only [List.mem_map] at hx
        obtain ⟨k, hk, rfl⟩ := hx
        have hkb : k ≠ b := fun h => (List.nodup_cons.mp hn).1 (h ▸ hk)
        simp [hkb]
      simp [hz]
    · have hmem : a ∈ ks := by
        rcases List.mem_cons.mp ha with h | h
        · exact absurd h.symm hba
        · exact h
      simp [hba, ih (List.nodup_cons.mp hn).2 hmem]

theorem sum_map_add_nat (ks : List ℕ) (f g : ℕ → ℕ) :
    (ks.map (fun k => f k + g k)).sum = (ks.map f).sum + (ks.map g).sum := by
  induction ks with
  | nil => rfl
  | cons b ks ih =>
    simp only [List.map_cons, List.sum_cons, ih]
    omega

theorem sum_counts (ks : List ℕ) (l : List ℕ) (hn : ks.Nodup)
    (hc : ∀ x ∈ l, x ∈ ks) :
    (ks.map (fun k => l.count k)).sum = l.length := by
  induction l with
  | nil => simp
  | cons a l ih =>
    have h1 : ks.map (fun k => (a :: l).count k) =
        ks.map (fun k => l.count k + if k = a then 1 else 0) := by
      refine List.map_congr_left ?_
      intro k _
      rw [List.count_cons]
      rcases eq_or_ne k a with rfl | hk
      · simp
      · simp [hk, Ne.symm hk]
    rw [h1, sum_map_add_nat,
      ih (fun x hx => hc x (List.mem_cons_of_mem _ hx)),
      sum_ite_eq_one hn (hc a (List.mem_cons_self _ _))]
    exact (List.length_cons a l).symm

/-! ### Claim theorems about the distribution builder -/

/-- C4: for every token sequence, the output WLD list sums to the number
of tokens, and every count is a non-negative integer. -/
theorem wld_list_sum_eq_length (tokens : List Token) :
    (wld_list tokens).sum = tokens.length ∧
    ∀ c ∈ wld_list tokens, 0 ≤ c := by
  constructor
  · show ((wldKeys (tokens.map List.length)).map
      (fun k => (tokens.map List.length).count k)).sum = tokens.length
    rw [sum_counts _ _ (nodup_wldKeys _)
      (fun x hx => (mem_wldKeys _ _).mpr hx)]
    exact List.length_map _ _
  · intro c _
    exact Nat.zero_le c

/-- C10: for every non-empty token sequence, every entry of the output
WLD list is at least 1 — the list enumerates only observed word lengths
(in first-occurrence order), so no zero count appears. -/
theorem wld_list_entries_pos (tokens : List Token) (hne : tokens ≠ []) :
    ∀ c ∈ wld_list tokens, 1 ≤ c := by
  intro c hc
  have hc' : ∃ k ∈ wldKeys (tokens.map List.length),
      (tokens.map List.length).count k = c := by
    simpa [wld_list] using hc
  obtain ⟨k, hk, rfl⟩ := hc'
  have hmem : k ∈ tokens.map List.length := (mem_wldKeys _ _).mp hk
  exact List.count_pos_iff.mpr hmem

/-- Witness for C10 at the one-token sequence `["a"]`. -/
theorem wld_list_entries_pos_witness :
    ([['a']] : List Token) ≠ [] ∧ ∀ c ∈ wld_list [['a']], 1 ≤ c :=
  ⟨by decide, wld_list_entries_pos [['a']] (by decide)⟩

/-- C3 (refuted): on the single token `"ab"` (one word of length 2) the
builder returns `[1]` — the counts of the observed lengths in
first-occurrence order — not a dense list from length 1 up to the
maximum observed length 2, whose length would be 2. -/
theorem wld_list_not_dense :
    wld_list [['a', 'b']] = [1] ∧
    (List.map List.length [['a', 'b']] : List ℕ) = [2] ∧
    (wld_list [['a', 'b']]).length ≠ 2 := by
  decide

/-! ### Lemmas about the zero-guard truncator -/

theorem foldl_min_le_acc (rest : List (List ℕ)) (a : ℕ) :
    rest.foldl (fun m x => min m x.length) a ≤ a := by
  induction rest generalizing a with
  | nil => exact le_refl a
  | cons x xs ih => exact le_trans (ih (min a x.length)) (min_le_left _ _)

theorem foldl_min_le_mem (rest : List (List ℕ)) :
    ∀ (a : ℕ) {l : List ℕ}, l ∈ rest →
      rest.foldl (fun m x => min m x.length) a ≤ l.length := by
  induction rest with
  | nil =>
    intro a l h
    cases h
  | cons x xs ih =>
    intro a l h
    rcases List.mem_cons.mp h with h' | h'
    · rw [h']
      exact le_trans (foldl_min_le_acc xs _) (min_le_right _ _)
    · exact ih _ h'

theorem minLen_le {ls : List (List ℕ)} {l : List ℕ} (h : l ∈ ls) :
    minLen ls ≤ l.length := by
  cases ls with
  | nil => cases h
  | cons x rest =>
    show rest.foldl (fun m y => min m y.length) x.length ≤ l.length
    rcases List.mem_cons.mp h with h' | h'
    · rw [h']
      exact foldl_min_le_acc rest x.length
    · exact foldl_min_le_mem rest x.length h'

theorem cutoffAux_le (ls : List (List ℕ)) (t : ℕ) :
    ∀ fuel c, cutoffAux ls t fuel c ≤ c + fuel := by
  intro fuel
  induction fuel with
  | zero => intro c; exact Nat.le_of_eq rfl
  | succ n ih =>
    intro c
    unfold cutoffAux
    split
    · have := ih (c + 1)
      omega
    · omega

theorem cutoffAux_row_ok (ls : List (List ℕ)) (t : ℕ) :
    ∀ fuel c i, c ≤ i → i < cutoffAux ls t fuel c → rowOk ls t i = true := by
  intro fuel
  induction fuel with
  | zero =>
    intro c i hci hlt
    simp only [cutoffAux] at hlt
    omega
  | succ n ih =>
    intro c i hci hlt
    unfold cutoffAux at hlt
    split at hlt
    · next hok =>
      rcases Nat.eq_or_lt_of_le hci with rfl | hlt'
      · exact hok
      · exact ih (c + 1) i hlt' hlt
    · omega

theorem cutoffAux_stop (ls : List (List ℕ)) (t : ℕ) :
    ∀ fuel c, cutoffAux ls t fuel c < c + fuel →
      rowOk ls t (cutoffAux ls t fuel c) = false := by
  intro fuel
  induction fuel with
  | zero =>
    intro c h
    simp only [cutoffAux] at h
    omega
  | succ n ih =>
    intro c h
    unfold cutoffAux at h ⊢
    split at h
    · next hok =>
      rw [if_pos hok]
      exact ih (c + 1) (by omega)
    · next hok =>
      rw [if_neg hok]
      exact Bool.eq_false_iff.mpr hok

theorem cutoffIdx_le_minLen (ls : List (List ℕ)) (t : ℕ) :
    cutoffIdx ls t ≤ minLen ls := by
  have := cutoffAux_le ls t (minLen ls) 0
  simpa [cutoffIdx] using this

theorem rowOk_true_iff (ls : List (List ℕ)) (t c : ℕ) :
    rowOk ls t c = true ↔ ∀ l ∈ ls, t ≤ l.getD c 0 := by
  simp [rowOk]

theorem rowOk_false_iff (ls : List (List ℕ)) (t c : ℕ) :
    rowOk ls t c = false ↔ ∃ l ∈ ls, l.getD c 0 < t := by
  rw [← Bool.not_eq_true, rowOk_true_iff]
  push_neg
  simp

theorem getD_take_of_lt {l : List ℕ} {c i : ℕ} (h : i < c) :
    (l.take c).getD i 0 = l.getD i 0 := by
  rw [List.getD_eq_getElem?_getD, List.getD_eq_getElem?_getD,
    List.getElem?_take, if_pos h]

/-- C2: the zero-guard truncator cuts every list to one common cutoff
`c`: after truncation all lists have length exactly `c`, every retained
count is at least the threshold `t`, `c` never exceeds the shortest
list's original length, and `c` is the first index at which some list
falls below `t` (or the shortest length when no violation occurs within
it). -/
theorem ensure_no_zeros_spec (ls : List (List ℕ)) (t : ℕ) (hne : ls ≠ []) :
    (∀ l ∈ ensure_no_zeros ls t, l.length = cutoffIdx ls t) ∧
    (∀ l ∈ ensure_no_zeros ls t, ∀ i, i < cutoffIdx ls t → t ≤ l.getD i 0) ∧
    cutoffIdx ls t ≤ minLen ls ∧
    (cutoffIdx ls t < minLen ls → ∃ l ∈ ls, l.getD (cutoffIdx ls t) 0 < t) ∧
    (∀ i, i < cutoffIdx ls t → ∀ l ∈ ls, t ≤ l.getD i 0) := by
  have hle : cutoffIdx ls t ≤ minLen ls := cutoffIdx_le_minLen ls t
  have hok : ∀ i, i < cutoffIdx ls t → ∀ l ∈ ls, t ≤ l.getD i 0 := by
    intro i hi
    exact (rowOk_true_iff ls t i).mp
      (cutoffAux_row_ok ls t (minLen ls) 0 i (Nat.zero_le i) hi)
  refine ⟨?_, ?_, hle, ?_, hok⟩
  · intro l hl
    simp only [ensure_no_zeros, List.mem_map] at hl
    obtain ⟨l₀, hl₀, rfl⟩ := hl
    rw [List.length_take]
    exact min_eq_left (le_trans hle (minLen_le hl₀))
  · intro l hl i hi
    simp only [ensure_no_zeros, List.mem_map] at hl
    obtain ⟨l₀, hl₀, rfl⟩ := hl
    rw [getD_take_of_lt hi]
    exact hok i hi l₀ hl₀
  · intro hlt
    refine (rowOk_false_iff ls t (cutoffIdx ls t)).mp ?_
    have := cutoffAux_stop ls t (minLen ls) 0 (by simpa [cutoffIdx] using hlt)
    simpa [cutoffIdx] using this

/-- Witness for C2 at the spec scenario collection with threshold 10:
the cutoff is the full shortest length 3 and nothing is cut. -/
theorem ensure_no_zeros_spec_witness :
    ([[30, 20, 10], [10, 10, 10]] : List (List ℕ)) ≠ [] ∧
    ((∀ l ∈ ensure_no_zeros [[30, 20, 10], [10, 10, 10]] 10,
        l.length = cutoffIdx [[30, 20, 10], [10, 10, 10]] 10) ∧
      (∀ l ∈ ensure_no_zeros [[30, 20, 10], [10, 10, 10]] 10,
        ∀ i, i < cutoffIdx [[30, 20, 10], [10, 10, 10]] 10 → 10 ≤ l.getD i 0) ∧
      cutoffIdx [[30, 20, 10], [10, 10, 10]] 10 ≤
        minLen [[30, 20, 10], [10, 10, 10]] ∧
      (cutoffIdx [[30, 20, 10], [10, 10, 10]] 10 <
          minLen [[30, 20, 10], [10, 10, 10]] →
        ∃ l ∈ ([[30, 20, 10], [10, 10, 10]] : List (List ℕ)),
          l.getD (cutoffIdx [[30, 20, 10], [10, 10, 10]] 10) 0 < 10) ∧
      (∀ i, i < cutoffIdx [[30, 20, 10], [10, 10, 10]] 10 →
        ∀ l ∈ ([[30, 20, 10], [10, 10, 10]] : List (List ℕ)),
          10 ≤ l.getD i 0)) :=
  ⟨by decide, ensure_no_zeros_spec [[30, 20, 10], [10, 10, 10]] 10 (by decide)⟩

/-! ### The pooled common list (C5) -/

/-- C5 counterexample: on the collection `[[1, 2], [3]]` the pooled list
is `[4, 2]`, of length 2 — the FIRST list's length — not of the
shortest list's length 1 as the claim states. -/
theorem common_wld_list_cex :
    common_wld_list [[1, 2], [3]] = [4, 2] ∧
    minLen [[1, 2], [3]] = 1 ∧
    (common_wld_list [[1, 2], [3]]).length ≠ minLen [[1, 2], [3]] := by
  decide

/-- C5 amended: when all lists of a non-empty collection share one
length `n` (the situation after zero-guard truncation, and the only one
the code's docstring admits), the pooled list has length `n` and is the
index-wise sum of the lists; in general the pooled list's length is the
FIRST list's length, not the shortest one's. -/
theorem common_wld_list_equal_lengths (ls : List (List ℕ)) (n : ℕ)
    (hne : ls ≠ []) (hn : ∀ l ∈ ls, l.length = n) :
    (common_wld_list ls).length = n ∧
    ∀ i, i < n → (common_wld_list ls).getD i 0 =
      (ls.map (fun l => l.getD i 0)).sum := by
  have hhead : (ls.headD []).length = n := by
    cases ls with
    | nil => exact absurd rfl hne
    | cons x rest => exact hn x (List.mem_cons_self _ _)
  constructor
  · rw [common_wld_list, List.length_map, List.length_range, hhead]
  · intro i hi
    have hget : (common_wld_list ls).getD i 0 =
        (ls.map (fun l => if i < l.length then l.getD i 0 else 0)).sum := by
      rw [common_wld_list, List.getD_eq_getElem?_getD, List.getElem?_map,
        List.getElem?_range (by rw [hhead]; exact hi)]
      rfl
    rw [hget]
    congr 1
    refine List.map_congr_left ?_
    intro l hl
    rw [if_pos (by rw [hn l hl]; exact hi)]

/-- Witness for C5 at the truncated spec scenario: both lists have
length 3 and the pooled list is their index-wise sum. -/
theorem common_wld_list_equal_lengths_witness :
    (([[30, 20, 10], [10, 10, 10]] : List (List ℕ)) ≠ [] ∧
      (∀ l ∈ ([[30, 20, 10], [10, 10, 10]] : List (List ℕ)), l.length = 3)) ∧
    ((common_wld_list [[30, 20, 10], [10, 10, 10]]).length = 3 ∧
      ∀ i, i < 3 → (common_wld_list [[30, 20, 10], [10, 10, 10]]).getD i 0 =
        (([[30, 20, 10], [10, 10, 10]] : List (List ℕ)).map
          (fun l => l.getD i 0)).sum) :=
  ⟨⟨by decide, by decide⟩,
    common_wld_list_equal_lengths [[30, 20, 10], [10, 10, 10]] 3
      (by decide) (by decide)⟩

/-! ### Lemmas about the drift correction -/

theorem sum_addFirstEq {m : ℤ} (d : ℤ) {l : List ℤ} (h : m ∈ l) :
    (addFirstEq m d l).sum = l.sum + d := by
  induction l with
  | nil => cases h
  | cons x xs ih =>
    show (if x = m then (x + d) :: xs else x :: addFirstEq m d xs).sum =
      (x :: xs).sum + d
    split
    · simp only [List.sum_cons]
      ring
    · next hx =>
      have hm : m ∈ xs := by
        rcases List.mem_cons.mp h with h' | h'
        · exact absurd h'.symm hx
        · exact h'
      simp only [List.sum_cons, ih hm]
      ring

theorem foldl_max_mem (xs : List ℤ) (a : ℤ) :
    xs.foldl max a = a ∨ xs.foldl max a ∈ xs := by
  induction xs generalizing a with
  | nil => exact Or.inl rfl
  | cons y ys ih =>
    rcases ih (max a y) with h | h
    · rw [List.foldl_cons, h]
      rcases max_choice a y with h' | h'
      · exact Or.inl h'
      · rw [h']
        exact Or.inr (List.mem_cons_self _ _)
    · exact Or.inr (List.mem_cons_of_mem _ h)

theorem listMax_mem {l : List ℤ} (h : l ≠ []) : listMax l ∈ l := by
  cases l with
  | nil => exact absurd rfl h
  | cons x xs =>
    show xs.foldl max x ∈ x :: xs
    rcases foldl_max_mem xs x with h' | h'
    · rw [h']
      exact List.mem_cons_self _ _
    · exact List.mem_cons_of_mem _ h'

theorem sum_addToFirstMax {l : List ℤ} (h : l ≠ []) (d : ℤ) :
    (addToFirstMax l d).sum = l.sum + d :=
  sum_addFirstEq d (listMax_mem h)

/-! ### Sum preservation of the estimator (C1) -/

/-- C1: for a non-empty sample and a common list whose truncation to the
sample's length has non-zero sum, the estimator succeeds and the
expected list sums exactly to the sample's sum after the rounding-drift
correction. -/
theorem expected_wld_list_sum (wld common : List ℕ)
    (h1 : wld ≠ []) (h2 : (common.take wld.length).sum ≠ 0) :
    ∃ l, expected_wld_list wld common = some l ∧
      l.sum = (wld.sum : ℤ) := by
  have hc : common.take wld.length ≠ [] := by
    intro hc
    rw [hc] at h2
    exact h2 rfl
  have hr : (common.take wld.length).map
      (fun (count : ℕ) => pyRound ((count : ℤ) * (wld.sum : ℤ))
        ((common.take wld.length).sum : ℤ)) ≠ [] := by
    intro hmap
    exact hc (List.map_eq_nil_iff.mp hmap)
  simp only [expected_wld_list, if_neg h2]
  refine ⟨_, rfl, ?_⟩
  rw [sum_addToFirstMax hr]
  ring

/-- Witness for C1 at the spec scenario sample and common list. -/
theorem expected_wld_list_sum_witness :
    (([10, 10, 10] : List ℕ) ≠ [] ∧
      (([40, 30, 20] : List ℕ).take ([10, 10, 10] : List ℕ).length).sum ≠ 0) ∧
    ∃ l, expected_wld_list [10, 10, 10] [40, 30, 20] = some l ∧
      l.sum = ((([10, 10, 10] : List ℕ).sum : ℕ) : ℤ) :=
  ⟨⟨by decide, by decide⟩,
    expected_wld_list_sum [10, 10, 10] [40, 30, 20] (by decide) (by decide)⟩

/-! ### Placement of the rounding residual (C8) -/

theorem addFirstEq_eq_set {m : ℤ} (d : ℤ) :
    ∀ {l : List ℤ}, m ∈ l →
      addFirstEq m d l =
        l.set (l.indexOf m) (l.getD (l.indexOf m) 0 + d) := by
  intro l
  induction l with
  | nil =>
    intro h
    cases h
  | cons x xs ih =>
    intro h
    show (if x = m then (x + d) :: xs else x :: addFirstEq m d xs) = _
    by_cases hx : x = m
    · subst hx
      rw [if_pos rfl, List.indexOf_cons_self]
      rfl
    · rw [if_neg hx]
      have hm : m ∈ xs := by
        rcases List.mem_cons.mp h with h' | h'
        · exact absurd h'.symm hx
        · exact h'
      rw [List.indexOf_cons_ne _ hx, ih hm]
      rfl

theorem addToFirstMax_eq_set {l : List ℤ} (h : l ≠ []) (d : ℤ) :
    addToFirstMax l d =
      l.set (l.indexOf (listMax l))
        (l.getD (l.indexOf (listMax l)) 0 + d) :=
  addFirstEq_eq_set d (listMax_mem h)

/-- C8: the spec scenario — pooling `[30,20,10]` and `[10,10,10]` gives
`[40,30,20]`; for the sample `[10,10,10]` the multiplier is `30/90` and
rounding gives `[13,10,7]`, already summing to 30, so the correction
adds 0 and the expected list is `[13,10,7]`; a drift case
(`[10,11,10]` against common `[10,10,10]`, all entries rounding down)
shows the residual landing on the first largest entry; and in general
the expected list is the rounded common list with the residual
`sum(sample) - sum(rounded)` added at the first index holding its
largest entry. -/
theorem expected_wld_list_scenario :
    common_wld_list [[30, 20, 10], [10, 10, 10]] = [40, 30, 20] ∧
    (([40, 30, 20] : List ℕ).map
      (fun (count : ℕ) => pyRound ((count : ℤ) * 30) 90)) = [13, 10, 7] ∧
    expected_wld_list [10, 10, 10] [40, 30, 20] = some [13, 10, 7] ∧
    expected_wld_list [10, 11, 10] [10, 10, 10] = some [11, 10, 10] ∧
    (∀ (wld common : List ℕ), (common.take wld.length).sum ≠ 0 →
      ∀ r, r = (common.take wld.length).map
          (fun (count : ℕ) => pyRound ((count : ℤ) * (wld.sum : ℤ))
            ((common.take wld.length).sum : ℤ)) →
        expected_wld_list wld common =
          some (r.set (r.indexOf (listMax r))
            (r.getD (r.indexOf (listMax r)) 0 + ((wld.sum : ℤ) - r.sum)))) := by
  refine ⟨by decide, by decide, by decide, by decide, ?_⟩
  intro wld common h2 r hr
  have hc : common.take wld.length ≠ [] := by
    intro hc
    rw [hc] at h2
    exact h2 rfl
  have hne : r ≠ [] := by
    intro hmap
    rw [hr] at hmap
    exact hc (List.map_eq_nil_iff.mp hmap)
  simp only [expected_wld_list, if_neg h2, ← hr]
  rw [addToFirstMax_eq_set hne]

/-- Witness for C8 instantiating its general residual-placement part at
the drift scenario. -/
theorem expected_wld_list_scenario_witness :
    ((([10, 10, 10] : List ℕ).take ([10, 11, 10] : List ℕ).length).sum ≠ 0 ∧
      ([10, 10, 10] : List ℤ) =
        ((([10, 10, 10] : List ℕ).take ([10, 11, 10] : List ℕ).length).map
          (fun (count : ℕ) => pyRound
            ((count : ℤ) * ((([10, 11, 10] : List ℕ).sum : ℕ) : ℤ))
            (((([10, 10, 10] : List ℕ).take
              ([10, 11, 10] : List ℕ).length).sum : ℕ) : ℤ)))) ∧
    expected_wld_list [10, 11, 10] [10, 10, 10] =
      some (([10, 10, 10] : List ℤ).set
        (([10, 10, 10] : List ℤ).indexOf (listMax [10, 10, 10]))
        (([10, 10, 10] : List ℤ).getD
          (([10, 10, 10] : List ℤ).indexOf (listMax [10, 10, 10])) 0 +
          ((([10, 11, 10] : List ℕ).sum : ℤ) -
            ([10, 10, 10] : List ℤ).sum))) :=
  ⟨⟨by decide, by decide⟩,
    expected_wld_list_scenario.2.2.2.2 [10, 11, 10] [10, 10, 10]
      (by decide) [10, 10, 10] (by decide)⟩

/-! ### Insufficient data in the comparator (C6) -/

/-- C6 (code bug): on a batch whose zero-guard truncation is empty —
the spec scenario `[5, 5, 5]` with threshold 10 — the comparator does
not report an insufficient-data result: it reaches a division by zero
(`none` here, a `ZeroDivisionError` in Python) while computing the
expected list, and a second healthy-looking name in the same batch is
dragged down with it rather than still producing a valid result. -/
theorem chi_square_insufficient_data :
    chiSquareExpected [[5, 5, 5]] 10 = [none] ∧
    chiSquareExpected [[5, 5, 5], [20, 20, 20]] 10 = [none, none] := by
  decide

/-! ### Unknown kind (C7) -/

/-- C7: resolving a name with a kind other than `book` or `author`
(including the unspecified kind `None`) fails immediately with a
`ValueError` whose message names the invalid kind. -/
theorem tokens_from_name_unknown_kind
    (texts : List (String × List Token)) (books : List (String × List String))
    (name : String) (kind : Option String)
    (h1 : kind ≠ some "book") (h2 : kind ≠ some "author") :
    tokens_from_name texts books name kind =
      Except.error (PyError.valueError
        ("Kind must be book or author, not " ++ kindStr kind)) := by
  unfold tokens_from_name
  rw [if_neg h1, if_neg h2]

/-- Witness for C7 at the kind `apple`. -/
theorem tokens_from_name_unknown_kind_witness :
    ((some "apple" : Option String) ≠ some "book" ∧
      (some "apple" : Option String) ≠ some "author") ∧
    tokens_from_name [] [] "x" (some "apple") =
      Except.error (PyError.valueError
        ("Kind must be book or author, not " ++ kindStr (some "apple"))) :=
  ⟨⟨by decide, by decide⟩,
    tokens_from_name_unknown_kind [] [] "x" (some "apple")
      (by decide) (by decide)⟩

/-! ### Malformed filenames (C9) -/

/-- C9 counterexample: the filename `a-b-c.txt` has two hyphens, so it
does not match the two-part convention, yet it passes the loader's
filter and the two-variable unpack of its three-part split raises
`ValueError`, aborting the corpus load instead of skipping the file. -/
theorem loadPairs_two_hyphens_abort :
    loadPairs [['a', '-', 'b', '-', 'c', '.', 't', 'x', 't']] =
      Except.error (PyError.valueError "too many values to unpack") := by
  rfl

/-- C9 amended: a filename with no hyphen or without the `.txt` suffix
is skipped without aborting the load; and when every filename passing
the filter splits into exactly two hyphen-separated parts, the load
succeeds with exactly one (title, author) pair per filter-passing file
— but a filter-passing filename with more hyphens aborts the whole
load. -/
theorem loadPairs_skips_nonmatching :
    (∀ (f : List Char) (fs : List (List Char)), isCandidate f = false →
      loadPairs (f :: fs) = loadPairs fs) ∧
    (∀ fs : List (List Char),
      (∀ f ∈ fs, isCandidate f = true →
        (splitHyphen (removeTxt f)).length = 2) →
      ∃ l, loadPairs fs = Except.ok l ∧
        l.length = (fs.filter isCandidate).length) := by
  constructor
  · intro f fs h
    show (if isCandidate f then _ else loadPairs fs) = loadPairs fs
    rw [if_neg (by rw [h]; exact Bool.false_ne_true)]
  · intro fs h
    induction fs with
    | nil => exact ⟨[], rfl, rfl⟩
    | cons f fs ih =>
      obtain ⟨l, hl, hlen⟩ := ih (fun g hg => h g (List.mem_cons_of_mem _ hg))
      by_cases hc : isCandidate f = true
      · obtain ⟨a, b, hab⟩ := List.length_eq_two.mp
          (h f (List.mem_cons_self _ _) hc)
        refine ⟨(a, b) :: l, ?_, ?_⟩
        · show (if isCandidate f then _ else loadPairs fs) = _
          rw [if_pos hc, hab, hl]
          rfl
        · rw [List.filter_cons, if_pos hc, List.length_cons,
            List.length_cons, hlen]
      · refine ⟨l, ?_, ?_⟩
        · show (if isCandidate f then _ else loadPairs fs) = _
          rw [if_neg hc, hl]
        · rw [List.filter_cons, if_neg hc, hlen]

/-- Witness for C9: a hyphen-less name is skipped, and a well-formed
listing loads one pair per valid file. -/
theorem loadPairs_skips_nonmatching_witness :
    (isCandidate ['a', 'b'] = false ∧
      loadPairs [['a', 'b']] = loadPairs []) ∧
    ((∀ f ∈ [['a', '-', 'b', '.', 't', 'x', 't']], isCandidate f = true →
        (splitHyphen (removeTxt f)).length = 2) ∧
      ∃ l, loadPairs [['a', '-', 'b', '.', 't', 'x', 't']] = Except.ok l ∧
        l.length =
          ([['a', '-', 'b', '.', 't', 'x', 't']].filter isCandidate).length) :=
  ⟨⟨by rfl, loadPairs_skips_nonmatching.1 _ _ (by rfl)⟩,
    ⟨by decide, loadPairs_skips_nonmatching.2 _ (by decide)⟩⟩

end WLD
